import Mathlib

/-
Shallow embedding of a tabular reinforcement-learning engine
(value table, action selection with shuffled tie-break, SARSA,
Q-learning, Dyna-Q with a transition model, and Q-learning with an
experience buffer), together with theorems about its update rules.

Modelling conventions:
* Python dictionaries become association lists with in-place key update
  (dictUpd) and first-match lookup (dictGet); observationally this is
  the dictionary: one binding per key, reads return the latest write.
* Randomness is passed explicitly.  A shuffle becomes a function
  applied to the list, assumed in the theorems to permute its input;
  a uniform index draw becomes a natural number reduced modulo the
  list length; sampling without replacement becomes taking a prefix of
  a permuted list.  For the uniformity theorem the shuffle is a
  uniformly random permutation of the positions (Equiv.Perm (Fin n)).
* Operations that can raise in Python return Option; none is the
  raised exception.
* The builtin max with a key function keeps the first of several
  maximal elements; maxScan reproduces exactly that left scan.
-/

set_option linter.unusedSectionVars false

variable {S A : Type} [DecidableEq S] [DecidableEq A]

/-- First-match lookup in an association list (dictionary read). -/
def dictGet {K V : Type} [DecidableEq K] : List (K × V) → K → Option V
  | [], _ => none
  | (k0, v0) :: t, k => if k0 = k then some v0 else dictGet t k

/-- In-place update of an association list: replace the binding of the
key if present, otherwise append it at the end (dictionary write,
keeping insertion order). -/
def dictUpd {K V : Type} [DecidableEq K] : List (K × V) → K → V → List (K × V)
  | [], k, v => [(k, v)]
  | (k0, v0) :: t, k, v => if k0 = k then (k, v) :: t else (k0, v0) :: dictUpd t k v

/-- Sparse Q-value memory: a default value and a dictionary from
(state, action) pairs to rational estimates. -/
structure MemoriaEsparsa (S A : Type) where
  valor_omissao : ℚ
  memoria : List ((S × A) × ℚ)

/-- Read a Q value; unseen pairs give the default value. -/
def MemoriaEsparsa.Q (m : MemoriaEsparsa S A) (s : S) (a : A) : ℚ :=
  (dictGet m.memoria (s, a)).getD m.valor_omissao

/-- Store a Q value for a (state, action) pair, overwriting any
previous binding. -/
def MemoriaEsparsa.atualizar (m : MemoriaEsparsa S A) (s : S) (a : A) (q : ℚ) :
    MemoriaEsparsa S A :=
  { m with memoria := dictUpd m.memoria (s, a) q }

/-- Left scan keeping the current maximum under f, replacing it only on
a strictly larger value: the first maximal element wins, exactly as the
builtin max with a key function behaves. -/
def maxScan (f : A → ℚ) (x : A) (xs : List A) : A :=
  xs.foldl (fun b y => if f b < f y then y else b) x

/-- max over a list with a key function; none models the exception on
an empty list. -/
def firstMaxBy (f : A → ℚ) : List A → Option A
  | [] => none
  | x :: xs => some (maxScan f x xs)

/-- Tie-break action selection: shuffle the candidate list, then take
the action of maximal Q value in the shuffled order.  Returns the
chosen action together with the shuffled list, because the shuffle
mutates the callers list in place. -/
def SelAcao.max_acao (mem : MemoriaEsparsa S A) (s : S) (acoes : List A)
    (rho : List A → List A) : Option (A × List A) :=
  (firstMaxBy (mem.Q s) (rho acoes)).map (fun b => (b, rho acoes))

/-- Epsilon-greedy strategy state: the shared Q memory, the shared
action list and the exploration probability. -/
structure EGreedy (S A : Type) where
  mem_aprend : MemoriaEsparsa S A
  acoes : List A
  epsilon : ℚ

/-- Exploitation: best action for the state via the shuffled max scan;
the returned strategy state carries the shuffled action list. -/
def EGreedy.aproveitar (eg : EGreedy S A) (s : S) (rho : List A → List A) :
    Option (A × EGreedy S A) :=
  (SelAcao.max_acao eg.mem_aprend s eg.acoes rho).map
    (fun x => (x.1, { eg with acoes := x.2 }))

/-- Exploration: a uniformly random element of the action list, the
random draw being the index reduced modulo the length. -/
def EGreedy.explorar (eg : EGreedy S A) (idx : ℕ) : Option A :=
  eg.acoes.get? (idx % eg.acoes.length)

/-- Epsilon-greedy selection: p models the uniform draw from [0,1);
the code exploits exactly when p is strictly greater than epsilon. -/
def EGreedy.selecionar_acao (eg : EGreedy S A) (s : S) (p : ℚ)
    (rho : List A → List A) (idx : ℕ) : Option (A × EGreedy S A) :=
  if eg.epsilon < p then eg.aproveitar s rho
  else (eg.explorar idx).map (fun b => (b, eg))

/-- SARSA update: uses the caller-supplied next action an. -/
def SARSA.aprender (alfa gama : ℚ) (mem : MemoriaEsparsa S A)
    (s : S) (a : A) (r : ℚ) (sn : S) (an : A) : MemoriaEsparsa S A :=
  let qsa := mem.Q s a
  let qsn_an := mem.Q sn an
  let q := qsa + alfa * (r + gama * qsn_an - qsa)
  mem.atualizar s a q

/-- Q-learning update: recomputes its own next action as the greedy
action in the next state over the (shuffled) action list, then applies
the temporal-difference rule.  Returns the updated memory and the
shuffled action list (the in-place side effect of the shuffle). -/
def QLearning.aprender (alfa gama : ℚ) (mem : MemoriaEsparsa S A) (acoes : List A)
    (s : S) (a : A) (r : ℚ) (sn : S) (rho : List A → List A) :
    Option (MemoriaEsparsa S A × List A) :=
  match SelAcao.max_acao mem sn acoes rho with
  | none => none
  | some (an, acoes2) =>
    let qsa := mem.Q s a
    let qsn_an := mem.Q sn an
    let q := qsa + alfa * (r + gama * qsn_an - qsa)
    some (mem.atualizar s a q, acoes2)

/-- Deterministic transition model: dictionaries from (state, action)
to observed next state and to observed reward. -/
structure ModeloTR (S A : Type) where
  T : List ((S × A) × S)
  R : List ((S × A) × ℚ)

/-- Record an observed transition, overwriting any prior outcome for
that (state, action) pair. -/
def ModeloTR.atualizar (m : ModeloTR S A) (s : S) (a : A) (r : ℚ) (sn : S) :
    ModeloTR S A :=
  { T := dictUpd m.T (s, a) sn, R := dictUpd m.R (s, a) r }

/-- Sample a recorded transition: pick a recorded key uniformly (index
modulo the number of keys) and read both dictionaries.  On an empty
model the index lookup fails and the whole call signals none. -/
def ModeloTR.amostrar (m : ModeloTR S A) (idx : ℕ) : Option (S × A × ℚ × S) :=
  let keys := m.T.map Prod.fst
  match keys.get? (idx % keys.length) with
  | none => none
  | some sa =>
    match dictGet m.T sa, dictGet m.R sa with
    | some sn, some r => some (sa.1, sa.2, r, sn)
    | _, _ => none

/-- The two dictionaries of a transition model have the same keys in
the same order; this holds for every model built by atualizar from the
empty model. -/
def keysAligned (m : ModeloTR S A) : Prop :=
  m.R.map Prod.fst = m.T.map Prod.fst

/-- Simulation loop of Dyna-Q: n more simulated steps, k the index into
the randomness streams; each step samples the (fixed) model and runs
one Q-learning update. -/
def DynaQ.simular (alfa gama : ℚ) (rhos : ℕ → List A → List A) (idxs : ℕ → ℕ) :
    ℕ → ℕ → MemoriaEsparsa S A → List A → ModeloTR S A →
    Option (MemoriaEsparsa S A × List A)
  | 0, _, mem, acoes, _ => some (mem, acoes)
  | n + 1, k, mem, acoes, modelo =>
    match modelo.amostrar (idxs k) with
    | none => none
    | some (s, a, r, sn) =>
      match QLearning.aprender alfa gama mem acoes s a r sn (rhos k) with
      | none => none
      | some x => DynaQ.simular alfa gama rhos idxs n (k + 1) x.1 x.2 modelo

/-- Dyna-Q observation: Q-learning update on the real transition, then
record it into the model, then run num_sim simulated updates. -/
def DynaQ.aprender (alfa gama : ℚ) (num_sim : ℕ) (mem : MemoriaEsparsa S A)
    (acoes : List A) (modelo : ModeloTR S A) (s : S) (a : A) (r : ℚ) (sn : S)
    (rhos : ℕ → List A → List A) (idxs : ℕ → ℕ) :
    Option (MemoriaEsparsa S A × List A × ModeloTR S A) :=
  match QLearning.aprender alfa gama mem acoes s a r sn (rhos 0) with
  | none => none
  | some x =>
    let modelo1 := modelo.atualizar s a r sn
    (DynaQ.simular alfa gama rhos idxs num_sim 1 x.1 x.2 modelo1).map
      (fun y => (y.1, y.2, modelo1))

/-- Bounded experience memory: a capacity and the stored list of
experiences, oldest first. -/
structure MemoriaExperiencia (T : Type) where
  dim_max : ℕ
  memoria : List T

/-- Insert an experience: when the memory is full, pop the head first
(popping an empty list raises, hence none), then append at the tail. -/
def MemoriaExperiencia.atualizar {T : Type} (m : MemoriaExperiencia T) (e : T) :
    Option (MemoriaExperiencia T) :=
  if m.memoria.length = m.dim_max then
    match m.memoria with
    | [] => none
    | _ :: t => some { m with memoria := t ++ [e] }
  else some { m with memoria := m.memoria ++ [e] }

/-- Sample min n size experiences without replacement: the first
min n size elements of a permuted copy of the memory. -/
def MemoriaExperiencia.amostrar {T : Type} (m : MemoriaExperiencia T) (n : ℕ)
    (rho : List T → List T) : List T :=
  (rho m.memoria).take (min n m.memoria.length)

/-- Replay loop of QME: run one Q-learning update per sampled
transition, k the index into the shuffle stream. -/
def QME.replay (alfa gama : ℚ) (rhos : ℕ → List A → List A) :
    List (S × A × ℚ × S) → ℕ → MemoriaEsparsa S A → List A →
    Option (MemoriaEsparsa S A × List A)
  | [], _, mem, acoes => some (mem, acoes)
  | (s, a, r, sn) :: rest, k, mem, acoes =>
    match QLearning.aprender alfa gama mem acoes s a r sn (rhos k) with
    | none => none
    | some x => QME.replay alfa gama rhos rest (k + 1) x.1 x.2

/-- QME observation: Q-learning update on the real transition, store it
in the experience memory, then replay a sample of stored transitions. -/
def QME.aprender (alfa gama : ℚ) (num_sim : ℕ) (mem : MemoriaEsparsa S A)
    (acoes : List A) (memexp : MemoriaExperiencia (S × A × ℚ × S))
    (s : S) (a : A) (r : ℚ) (sn : S) (rhos : ℕ → List A → List A)
    (sampler : List (S × A × ℚ × S) → List (S × A × ℚ × S)) :
    Option (MemoriaEsparsa S A × List A × MemoriaExperiencia (S × A × ℚ × S)) :=
  match QLearning.aprender alfa gama mem acoes s a r sn (rhos 0) with
  | none => none
  | some x =>
    match memexp.atualizar (s, a, r, sn) with
    | none => none
    | some memexp1 =>
      (QME.replay alfa gama rhos (memexp1.amostrar num_sim sampler) 1 x.1 x.2).map
        (fun y => (y.1, y.2, memexp1))

/-- The closed family of learning algorithms known to the coordinator. -/
inductive AprendRef where
  | sarsa (alfa gama : ℚ)
  | qlearning (alfa gama : ℚ)
  | dynaq (alfa gama : ℚ) (num_sim : ℕ)
  | qme (alfa gama : ℚ) (num_sim : ℕ)

/-- Full mutable state reachable from the coordinator: the shared Q
memory, the shared action list, the transition model and the
experience memory. -/
structure EngineState (S A : Type) where
  mem : MemoriaEsparsa S A
  acoes : List A
  modelo : ModeloTR S A
  memexp : MemoriaExperiencia (S × A × ℚ × S)

/-- Coordinator dispatch: the next action an is forwarded to the
learner exactly when the learner is SARSA; every other learner is
invoked without it. -/
def MecAprendRef.aprender (alg : AprendRef) (st : EngineState S A)
    (s : S) (a : A) (r : ℚ) (sn : S) (an : A)
    (rhos : ℕ → List A → List A) (idxs : ℕ → ℕ)
    (sampler : List (S × A × ℚ × S) → List (S × A × ℚ × S)) :
    Option (EngineState S A) :=
  match alg with
  | .sarsa alfa gama =>
    some { st with mem := SARSA.aprender alfa gama st.mem s a r sn an }
  | .qlearning alfa gama =>
    (QLearning.aprender alfa gama st.mem st.acoes s a r sn (rhos 0)).map
      (fun x => { st with mem := x.1, acoes := x.2 })
  | .dynaq alfa gama num_sim =>
    (DynaQ.aprender alfa gama num_sim st.mem st.acoes st.modelo s a r sn rhos idxs).map
      (fun x => { st with mem := x.1, acoes := x.2.1, modelo := x.2.2 })
  | .qme alfa gama num_sim =>
    (QME.aprender alfa gama num_sim st.mem st.acoes st.memexp s a r sn rhos sampler).map
      (fun x => { st with mem := x.1, acoes := x.2.1, memexp := x.2.2 })

/-- A list as a function of positions, shuffled by a permutation of the
positions: the model of a uniformly random shuffle. -/
def shuffleList (l : List A) (sigma : Equiv.Perm (Fin l.length)) : List A :=
  List.ofFn (fun p => l.get (sigma p))

/-- Exchange the two list elements at positions i and j, as a function
on elements. -/
def swapElems (l : List A) (i j : Fin l.length) : A → A :=
  fun z => if z = l.get i then l.get j else if z = l.get j then l.get i else z

/-- Tie-break selection with the shuffle modelled as a uniformly random
permutation of the positions. -/
def max_acao_unif (mem : MemoriaEsparsa S A) (s : S) (l : List A)
    (sigma : Equiv.Perm (Fin l.length)) : Option (A × List A) :=
  SelAcao.max_acao mem s l (fun _ => shuffleList l sigma)

/- Helper lemmas about the dictionary model. -/

lemma dictGet_dictUpd_same {K V : Type} [DecidableEq K]
    (l : List (K × V)) (k : K) (v : V) :
    dictGet (dictUpd l k v) k = some v := by
  induction l with
  | nil => simp [dictUpd, dictGet]
  | cons h t ih =>
    obtain ⟨k0, v0⟩ := h
    by_cases hk : k0 = k
    · simp [dictUpd, hk, dictGet]
    · simp [dictUpd, hk, dictGet, ih]

lemma dictGet_dictUpd_other {K V : Type} [DecidableEq K]
    (l : List (K × V)) (k k2 : K) (v : V) (hne : k2 ≠ k) :
    dictGet (dictUpd l k v) k2 = dictGet l k2 := by
  have hkk : ¬ k = k2 := fun h => hne h.symm
  induction l with
  | nil => simp [dictUpd, dictGet, hkk]
  | cons h t ih =>
    obtain ⟨k0, v0⟩ := h
    by_cases hk : k0 = k
    · subst hk
      simp [dictUpd, dictGet, hkk]
    · simp [dictUpd, hk, dictGet, ih]

lemma dictUpd_ne_nil {K V : Type} [DecidableEq K]
    (l : List (K × V)) (k : K) (v : V) : dictUpd l k v ≠ [] := by
  cases l with
  | nil => simp [dictUpd]
  | cons h t =>
    obtain ⟨k0, v0⟩ := h
    by_cases hk : k0 = k <;> simp [dictUpd, hk]

lemma dictGet_isSome_of_mem_keys {K V : Type} [DecidableEq K]
    (l : List (K × V)) (k : K) (hk : k ∈ l.map Prod.fst) :
    (dictGet l k).isSome := by
  induction l with
  | nil => simp at hk
  | cons h t ih =>
    obtain ⟨k0, v0⟩ := h
    by_cases he : k0 = k
    · simp [dictGet, he]
    · have : k ∈ t.map Prod.fst := by
        rcases (List.mem_cons).1 hk with h1 | h1
        · exact absurd h1.symm he
        · exact h1
      simp [dictGet, he, ih this]

lemma dictUpd_keys_eq {K V W : Type} [DecidableEq K]
    (l1 : List (K × V)) (l2 : List (K × W)) (k : K) (v : V) (w : W)
    (h : l1.map Prod.fst = l2.map Prod.fst) :
    (dictUpd l1 k v).map Prod.fst = (dictUpd l2 k w).map Prod.fst := by
  induction l1 generalizing l2 with
  | nil =>
    cases l2 with
    | nil => simp [dictUpd]
    | cons h2 t2 => simp at h
  | cons h1 t1 ih =>
    obtain ⟨k1, v1⟩ := h1
    cases l2 with
    | nil => simp at h
    | cons h2 t2 =>
      obtain ⟨k2, w2⟩ := h2
      simp only [List.map_cons, List.cons.injEq] at h
      obtain ⟨hkk, htt⟩ := h
      subst hkk
      by_cases hk : k1 = k
      · simp [dictUpd, hk, htt]
      · simp [dictUpd, hk, ih t2 htt]

/- Helper lemmas about the first-maximum scan. -/

lemma maxScan_spec (f : A → ℚ) (xs : List A) (x : A) :
    (maxScan f x xs = x ∨ maxScan f x xs ∈ xs) ∧
      f x ≤ f (maxScan f x xs) ∧ ∀ z ∈ xs, f z ≤ f (maxScan f x xs) := by
  induction xs generalizing x with
  | nil => simp [maxScan]
  | cons y t ih =>
    have hstep : maxScan f x (y :: t) = maxScan f (if f x < f y then y else x) t := rfl
    obtain ⟨hmem, hle, hall⟩ := ih (if f x < f y then y else x)
    have hxle : f x ≤ f (if f x < f y then y else x) := by
      by_cases hc : f x < f y
      · rw [if_pos hc]; exact le_of_lt hc
      · rw [if_neg hc]
    have hyle : f y ≤ f (if f x < f y then y else x) := by
      by_cases hc : f x < f y
      · rw [if_pos hc]
      · rw [if_neg hc]; exact le_of_not_lt hc
    rw [hstep]
    refine ⟨?_, le_trans hxle hle, ?_⟩
    · rcases hmem with h1 | h1
      · rw [h1]
        by_cases hc : f x < f y
        · rw [if_pos hc]; right; exact List.mem_cons_self y t
        · rw [if_neg hc]; left; rfl
      · right; exact List.mem_cons_of_mem _ h1
    · intro z hz
      rcases (List.mem_cons).1 hz with h1 | h1
      · subst h1; exact le_trans hyle hle
      · exact hall z h1

lemma firstMaxBy_spec (f : A → ℚ) (l : List A) (h : l ≠ []) :
    ∃ b, firstMaxBy f l = some b ∧ b ∈ l ∧ ∀ z ∈ l, f z ≤ f b := by
  cases l with
  | nil => exact absurd rfl h
  | cons x xs =>
    obtain ⟨hmem, hle, hall⟩ := maxScan_spec f xs x
    refine ⟨maxScan f x xs, rfl, ?_, ?_⟩
    · rcases hmem with h1 | h1
      · rw [h1]; exact List.mem_cons_self x xs
      · exact List.mem_cons_of_mem _ h1
    · intro z hz
      rcases (List.mem_cons).1 hz with h1 | h1
      · subst h1; exact hle
      · exact hall z h1

lemma maxScan_map (f : A → ℚ) (phi : A → A) (hphi : ∀ z, f (phi z) = f z)
    (xs : List A) (x : A) :
    maxScan f (phi x) (xs.map phi) = phi (maxScan f x xs) := by
  induction xs generalizing x with
  | nil => rfl
  | cons y t ih =>
    have h1 : maxScan f (phi x) ((y :: t).map phi)
        = maxScan f (if f (phi x) < f (phi y) then phi y else phi x) (t.map phi) := rfl
    have h2 : maxScan f x (y :: t) = maxScan f (if f x < f y then y else x) t := rfl
    rw [h1, h2, hphi, hphi, ← apply_ite phi, ih]

lemma firstMaxBy_map (f : A → ℚ) (phi : A → A) (hphi : ∀ z, f (phi z) = f z)
    (l : List A) :
    firstMaxBy f (l.map phi) = Option.map phi (firstMaxBy f l) := by
  cases l with
  | nil => rfl
  | cons x xs =>
    simp only [List.map_cons, firstMaxBy]
    rw [maxScan_map f phi hphi]
    rfl

/- Helper lemmas about permutations of lists. -/

lemma perm_ne_nil {l1 l2 : List A} (h : List.Perm l1 l2) (hne : l2 ≠ []) :
    l1 ≠ [] := by
  intro hcon
  subst hcon
  exact hne (List.Perm.nil_eq h).symm

lemma mem_shuffleList (l : List A) (sigma : Equiv.Perm (Fin l.length)) (x : A) :
    x ∈ shuffleList l sigma ↔ x ∈ l := by
  constructor
  · intro hx
    rw [shuffleList, List.mem_ofFn] at hx
    obtain ⟨p, hp⟩ := hx
    rw [← hp]
    exact l.get_mem _ _
  · intro hx
    obtain ⟨k, hk⟩ := List.mem_iff_get.1 hx
    rw [shuffleList, List.mem_ofFn]
    refine ⟨sigma.symm k, ?_⟩
    show l.get (sigma (sigma.symm k)) = x
    rw [Equiv.apply_symm_apply, hk]

lemma shuffleList_ne_nil (l : List A) (sigma : Equiv.Perm (Fin l.length))
    (h : l ≠ []) : shuffleList l sigma ≠ [] := by
  intro hcon
  have h1 : (shuffleList l sigma).length = l.length := by
    simp [shuffleList]
  rw [hcon] at h1
  exact h (List.eq_nil_of_length_eq_zero h1.symm)

/- Read-back lemmas for the Q memory. -/

lemma MemoriaEsparsa.Q_atualizar_same (m : MemoriaEsparsa S A) (s : S) (a : A) (q : ℚ) :
    (m.atualizar s a q).Q s a = q := by
  unfold MemoriaEsparsa.atualizar MemoriaEsparsa.Q
  rw [dictGet_dictUpd_same]
  rfl

lemma MemoriaEsparsa.Q_atualizar_other (m : MemoriaEsparsa S A) (s : S) (a : A)
    (q : ℚ) (s2 : S) (a2 : A) (h : (s2, a2) ≠ (s, a)) :
    (m.atualizar s a q).Q s2 a2 = m.Q s2 a2 := by
  unfold MemoriaEsparsa.atualizar MemoriaEsparsa.Q
  rw [dictGet_dictUpd_other _ _ _ _ h]

lemma qlearning_aprender_some (alfa gama : ℚ) (mem : MemoriaEsparsa S A)
    (acoes : List A) (s : S) (a : A) (r : ℚ) (sn : S) (rho : List A → List A)
    (hne : acoes ≠ []) (hrho : List.Perm (rho acoes) acoes) :
    ∃ mem2, QLearning.aprender alfa gama mem acoes s a r sn rho = some (mem2, rho acoes) := by
  have hne2 := perm_ne_nil hrho hne
  obtain ⟨b, hb, _, _⟩ := firstMaxBy_spec (mem.Q sn) (rho acoes) hne2
  exact ⟨mem.atualizar s a (mem.Q s a + alfa * (r + gama * mem.Q sn b - mem.Q s a)),
    by simp [QLearning.aprender, SelAcao.max_acao, hb]⟩

/-- Claim C2: the on-policy (SARSA) update replaces Q(s,a) by
Q(s,a) + alfa * (r + gama * Q(sn,an) - Q(s,a)), using exactly the
caller-supplied next action an, even when an does not maximise Q at
sn; every other (state, action) pair keeps its value. -/
theorem sarsa_update_formula (alfa gama : ℚ) (mem : MemoriaEsparsa S A)
    (s : S) (a : A) (r : ℚ) (sn : S) (an : A) :
    (SARSA.aprender alfa gama mem s a r sn an).Q s a
        = mem.Q s a + alfa * (r + gama * mem.Q sn an - mem.Q s a) ∧
      ∀ s2 a2, (s2, a2) ≠ (s, a) →
        (SARSA.aprender alfa gama mem s a r sn an).Q s2 a2 = mem.Q s2 a2 := by
  constructor
  · exact MemoriaEsparsa.Q_atualizar_same mem s a _
  · intro s2 a2 hne
    exact MemoriaEsparsa.Q_atualizar_other mem s a _ s2 a2 hne

theorem sarsa_update_formula_witness :
    (SARSA.aprender (1/2) 1 (⟨0, [((3, 1), (2 : ℚ)), ((3, 2), 5)]⟩ : MemoriaEsparsa ℕ ℕ)
        0 10 0 3 1).Q 0 10 = 1 ∧
      (SARSA.aprender (1/2) 1 (⟨0, [((3, 1), (2 : ℚ)), ((3, 2), 5)]⟩ : MemoriaEsparsa ℕ ℕ)
          0 10 0 3 1).Q 3 2 = 5 := by
  have h := sarsa_update_formula (1/2) 1
    (⟨0, [((3, 1), (2 : ℚ)), ((3, 2), 5)]⟩ : MemoriaEsparsa ℕ ℕ) 0 10 0 3 1
  constructor
  · rw [h.1]
    norm_num [MemoriaEsparsa.Q, dictGet]
  · rw [h.2 3 2 (by decide)]
    norm_num [MemoriaEsparsa.Q, dictGet]

/-- Claim C1: the off-policy (Q-learning) update replaces Q(s,a) by
Q(s,a) + alfa * (r + gama * M - Q(s,a)), where M is the maximum stored
Q estimate over the full action set at sn (the default standing in for
unseen pairs), for every shuffle of the action list; no next-action
argument exists, so the update cannot depend on the action actually
taken next. -/
theorem qlearning_update_formula (alfa gama : ℚ) (mem : MemoriaEsparsa S A)
    (acoes : List A) (s : S) (a : A) (r : ℚ) (sn : S) (rho : List A → List A) (M : ℚ)
    (hne : acoes ≠ []) (hrho : List.Perm (rho acoes) acoes)
    (hM1 : M ∈ acoes.map (mem.Q sn)) (hM2 : ∀ x ∈ acoes.map (mem.Q sn), x ≤ M) :
    QLearning.aprender alfa gama mem acoes s a r sn rho =
      some (mem.atualizar s a (mem.Q s a + alfa * (r + gama * M - mem.Q s a)),
        rho acoes) := by
  have hne2 : rho acoes ≠ [] := perm_ne_nil hrho hne
  obtain ⟨b, hb, hbmem, hball⟩ := firstMaxBy_spec (mem.Q sn) (rho acoes) hne2
  have hbl : b ∈ acoes := (hrho.mem_iff).1 hbmem
  obtain ⟨y, hy, hyM⟩ := List.mem_map.1 hM1
  have h1 : mem.Q sn b ≤ M := hM2 _ (List.mem_map_of_mem _ hbl)
  have h2 : M ≤ mem.Q sn b := by
    rw [← hyM]
    exact hball y ((hrho.mem_iff).2 hy)
  have hQ : mem.Q sn b = M := le_antisymm h1 h2
  simp [QLearning.aprender, SelAcao.max_acao, hb, hQ]

theorem qlearning_update_formula_witness :
    (([1, 2] : List ℕ) ≠ []) ∧
    QLearning.aprender (1/2) 1 (⟨0, [((3, 1), (2 : ℚ)), ((3, 2), 5)]⟩ : MemoriaEsparsa ℕ ℕ)
        [1, 2] 0 10 0 3 id =
      some ((⟨0, [((3, 1), (2 : ℚ)), ((3, 2), 5)]⟩ : MemoriaEsparsa ℕ ℕ).atualizar 0 10 (5/2),
        [1, 2]) := by
  refine ⟨by decide, ?_⟩
  have h := qlearning_update_formula (1/2) 1
    (⟨0, [((3, 1), (2 : ℚ)), ((3, 2), 5)]⟩ : MemoriaEsparsa ℕ ℕ) [1, 2] 0 10 0 3 id 5
    (by decide) (List.Perm.refl _)
    (by norm_num [MemoriaEsparsa.Q, dictGet])
    (by norm_num [MemoriaEsparsa.Q, dictGet])
  rw [h]
  norm_num [MemoriaEsparsa.Q, dictGet]

/-- Claim C3: the coordinator forwards the next action to the learner
exactly when the active learner is SARSA; for every other learner the
update is invoked without it, so the resulting engine state is the
same for any two values of the next-action argument. -/
theorem coordinator_nextaction_routing :
    (∀ (alfa gama : ℚ) (st : EngineState S A) (s : S) (a : A) (r : ℚ) (sn : S) (an : A)
        (rhos : ℕ → List A → List A) (idxs : ℕ → ℕ)
        (sampler : List (S × A × ℚ × S) → List (S × A × ℚ × S)),
      MecAprendRef.aprender (AprendRef.sarsa alfa gama) st s a r sn an rhos idxs sampler =
        some { st with mem := SARSA.aprender alfa gama st.mem s a r sn an }) ∧
    (∀ alg : AprendRef, (∀ alfa gama : ℚ, alg ≠ AprendRef.sarsa alfa gama) →
      ∀ (st : EngineState S A) (s : S) (a : A) (r : ℚ) (sn : S) (an1 an2 : A)
        (rhos : ℕ → List A → List A) (idxs : ℕ → ℕ)
        (sampler : List (S × A × ℚ × S) → List (S × A × ℚ × S)),
      MecAprendRef.aprender alg st s a r sn an1 rhos idxs sampler =
        MecAprendRef.aprender alg st s a r sn an2 rhos idxs sampler) := by
  constructor
  · intro alfa gama st s a r sn an rhos idxs sampler
    rfl
  · intro alg halg st s a r sn an1 an2 rhos idxs sampler
    cases alg with
    | sarsa alfa gama => exact absurd rfl (halg alfa gama)
    | qlearning alfa gama => rfl
    | dynaq alfa gama num_sim => rfl
    | qme alfa gama num_sim => rfl

theorem coordinator_nextaction_routing_witness :
    (∀ alfa gama : ℚ, AprendRef.qlearning 1 1 ≠ AprendRef.sarsa alfa gama) ∧
    MecAprendRef.aprender (AprendRef.sarsa (1/2) 1)
        (⟨⟨0, []⟩, [0, 1], ⟨[], []⟩, ⟨2, []⟩⟩ : EngineState ℕ ℕ) 0 0 1 1 0
        (fun _ l => l) (fun _ => 0) id =
      some { (⟨⟨0, []⟩, [0, 1], ⟨[], []⟩, ⟨2, []⟩⟩ : EngineState ℕ ℕ) with
        mem := SARSA.aprender (1/2) 1 (⟨0, []⟩ : MemoriaEsparsa ℕ ℕ) 0 0 1 1 0 } ∧
    MecAprendRef.aprender (AprendRef.qlearning 1 1)
        (⟨⟨0, []⟩, [0, 1], ⟨[], []⟩, ⟨2, []⟩⟩ : EngineState ℕ ℕ) 0 0 1 1 5
        (fun _ l => l) (fun _ => 0) id =
      MecAprendRef.aprender (AprendRef.qlearning 1 1)
        (⟨⟨0, []⟩, [0, 1], ⟨[], []⟩, ⟨2, []⟩⟩ : EngineState ℕ ℕ) 0 0 1 1 7
        (fun _ l => l) (fun _ => 0) id := by
  refine ⟨fun alfa gama h => AprendRef.noConfusion h, ?_, ?_⟩
  · exact (coordinator_nextaction_routing (S := ℕ) (A := ℕ)).1 (1/2) 1 _ 0 0 1 1 0 _ _ _
  · exact (coordinator_nextaction_routing (S := ℕ) (A := ℕ)).2 (AprendRef.qlearning 1 1)
      (fun alfa gama h => AprendRef.noConfusion h) _ 0 0 1 1 5 7 _ _ _

/-- Claim C4, counterexample to the claim as stated: with epsilon = 1/2
and a drawn value p = 1/2 (so p is greater than or equal to epsilon),
the code takes the exploration branch and returns action 1, while the
greedy action is 0: the selection is not the best action whenever the
drawn value equals epsilon, because the code compares with a strict
inequality. -/
theorem egreedy_threshold_counterexample :
    ((1 : ℚ)/2 ≥ (1 : ℚ)/2) ∧
    EGreedy.selecionar_acao
        (⟨⟨0, [((7, 0), (1 : ℚ))]⟩, [0, 1], 1/2⟩ : EGreedy ℕ ℕ) 7 (1/2) id 1 =
      some (1, (⟨⟨0, [((7, 0), (1 : ℚ))]⟩, [0, 1], 1/2⟩ : EGreedy ℕ ℕ)) ∧
    EGreedy.aproveitar
        (⟨⟨0, [((7, 0), (1 : ℚ))]⟩, [0, 1], 1/2⟩ : EGreedy ℕ ℕ) 7 id =
      some (0, (⟨⟨0, [((7, 0), (1 : ℚ))]⟩, [0, 1], 1/2⟩ : EGreedy ℕ ℕ)) ∧
    (1 : ℕ) ≠ 0 := by
  refine ⟨le_refl _, ?_, ?_, by decide⟩
  · rw [EGreedy.selecionar_acao, if_neg (lt_irrefl ((1 : ℚ)/2))]
    rfl
  · rw [EGreedy.aproveitar]
    norm_num [SelAcao.max_acao, firstMaxBy, maxScan, MemoriaEsparsa.Q, dictGet]

/-- Claim C4 (amended): the epsilon-greedy selection draws one uniform
value p in [0,1) and returns the best (greedy) action exactly when p is
strictly greater than epsilon; otherwise it returns a uniformly random
element of the full action set (which may coincide with the best
action). -/
theorem egreedy_selecionar_branches (eg : EGreedy S A) (s : S) (p : ℚ)
    (rho : List A → List A) (idx : ℕ) (hne : eg.acoes ≠ []) :
    (eg.epsilon < p →
      EGreedy.selecionar_acao eg s p rho idx = eg.aproveitar s rho) ∧
    (p ≤ eg.epsilon → ∃ b, b ∈ eg.acoes ∧
      EGreedy.selecionar_acao eg s p rho idx = some (b, eg)) := by
  constructor
  · intro h
    rw [EGreedy.selecionar_acao, if_pos h]
  · intro h
    have hlen : 0 < eg.acoes.length := List.length_pos.2 hne
    have hlt : idx % eg.acoes.length < eg.acoes.length := Nat.mod_lt _ hlen
    refine ⟨eg.acoes.get ⟨idx % eg.acoes.length, hlt⟩, List.get_mem _ _ _, ?_⟩
    rw [EGreedy.selecionar_acao, if_neg (not_lt.2 h), EGreedy.explorar,
      List.get?_eq_get hlt]
    rfl

theorem egreedy_selecionar_branches_witness :
    EGreedy.selecionar_acao (⟨⟨0, []⟩, [0], 1/2⟩ : EGreedy ℕ ℕ) 0 1 id 0 =
      EGreedy.aproveitar (⟨⟨0, []⟩, [0], 1/2⟩ : EGreedy ℕ ℕ) 0 id ∧
    ∃ b, b ∈ ([0] : List ℕ) ∧
      EGreedy.selecionar_acao (⟨⟨0, []⟩, [0], 1/2⟩ : EGreedy ℕ ℕ) 0 0 id 0 =
        some (b, (⟨⟨0, []⟩, [0], 1/2⟩ : EGreedy ℕ ℕ)) := by
  constructor
  · exact (egreedy_selecionar_branches (⟨⟨0, []⟩, [0], 1/2⟩ : EGreedy ℕ ℕ) 0 1 id 0
      (by decide)).1 (by show (1 : ℚ)/2 < 1; norm_num)
  · exact (egreedy_selecionar_branches (⟨⟨0, []⟩, [0], 1/2⟩ : EGreedy ℕ ℕ) 0 0 id 0
      (by decide)).2 (by show (0 : ℚ) ≤ 1/2; norm_num)

lemma modelotr_amostrar_isSome (m : ModeloTR S A) (idx : ℕ)
    (hT : m.T ≠ []) (hal : keysAligned m) : (m.amostrar idx).isSome := by
  have hkeys : m.T.map Prod.fst ≠ [] := by simpa using hT
  have hlen : 0 < (m.T.map Prod.fst).length := List.length_pos.2 hkeys
  have hlt : idx % (m.T.map Prod.fst).length < (m.T.map Prod.fst).length :=
    Nat.mod_lt _ hlen
  set sa := (m.T.map Prod.fst).get ⟨idx % (m.T.map Prod.fst).length, hlt⟩ with hsadef
  have hget : (m.T.map Prod.fst).get? (idx % (m.T.map Prod.fst).length) = some sa :=
    List.get?_eq_get hlt
  have hmemT : sa ∈ m.T.map Prod.fst := by
    rw [hsadef]
    exact List.get_mem _ _ _
  have h1 := dictGet_isSome_of_mem_keys m.T sa hmemT
  have hmemR : sa ∈ m.R.map Prod.fst := by
    rw [hal]
    exact hmemT
  have h2 := dictGet_isSome_of_mem_keys m.R sa hmemR
  obtain ⟨sn, hsn⟩ := Option.isSome_iff_exists.1 h1
  obtain ⟨r, hr⟩ := Option.isSome_iff_exists.1 h2
  simp only [ModeloTR.amostrar]
  rw [hget]
  show (match dictGet m.T sa, dictGet m.R sa with
    | some sn, some r => some (sa.1, sa.2, r, sn)
    | _, _ => none).isSome = true
  rw [hsn, hr]
  rfl

/-- Claim C6: the experience memory keeps size at most dim_max across
every insertion; insertion appends at the tail and, when the memory is
full, the oldest (head) element is removed first; in particular with
capacity 2 inserting three experiences in order leaves exactly the two
most recent ones. -/
theorem memoria_experiencia_fifo :
    (∀ (T : Type) (m : MemoriaExperiencia T) (e : T),
      1 ≤ m.dim_max → m.memoria.length ≤ m.dim_max →
      ∃ m2, m.atualizar e = some m2 ∧ m2.dim_max = m.dim_max ∧
        m2.memoria.length ≤ m.dim_max ∧
        (m.memoria.length < m.dim_max → m2.memoria = m.memoria ++ [e]) ∧
        (m.memoria.length = m.dim_max → m2.memoria = m.memoria.tail ++ [e])) ∧
    (((⟨2, []⟩ : MemoriaExperiencia ℕ).atualizar 1).bind (fun m => m.atualizar 2)
        |>.bind (fun m => m.atualizar 3)) = some ⟨2, [2, 3]⟩ := by
  constructor
  · intro T m e hdim hle
    obtain ⟨dim, lst⟩ := m
    simp only at hdim hle ⊢
    by_cases hfull : lst.length = dim
    · cases lst with
      | nil =>
        rw [List.length_nil] at hfull
        omega
      | cons h0 t0 =>
        refine ⟨⟨dim, t0 ++ [e]⟩, ?_, rfl, ?_, ?_, ?_⟩
        · simp [MemoriaExperiencia.atualizar, hfull]
        · show (t0 ++ [e]).length ≤ dim
          have hl : (h0 :: t0).length = dim := hfull
          simp only [List.length_append, List.length_cons, List.length_nil] at hl ⊢
          omega
        · intro hlt
          exact absurd hfull (Nat.ne_of_lt hlt)
        · intro _
          rfl
    · refine ⟨⟨dim, lst ++ [e]⟩, ?_, rfl, ?_, ?_, ?_⟩
      · simp [MemoriaExperiencia.atualizar, hfull]
      · show (lst ++ [e]).length ≤ dim
        have hlt : lst.length < dim := lt_of_le_of_ne hle hfull
        simp only [List.length_append, List.length_cons, List.length_nil]
        omega
      · intro _
        rfl
      · intro heq
        exact absurd heq hfull
  · rfl

theorem memoria_experiencia_fifo_witness :
    (1 ≤ 2) ∧ (([5] : List ℕ).length ≤ 2) ∧
    ∃ m2, (⟨2, [5]⟩ : MemoriaExperiencia ℕ).atualizar 9 = some m2 ∧
      m2.dim_max = 2 ∧ m2.memoria.length ≤ 2 ∧
      (([5] : List ℕ).length < 2 → m2.memoria = [5] ++ [9]) ∧
      (([5] : List ℕ).length = 2 → m2.memoria = ([5] : List ℕ).tail ++ [9]) :=
  ⟨by decide, by decide,
    memoria_experiencia_fifo.1 ℕ (⟨2, [5]⟩ : MemoriaExperiencia ℕ) 9 (by decide) (by decide)⟩

/-- Claim C7: sampling a transition model that holds no recorded
transitions signals a failure (none, the raised exception) for every
random draw, never a silent default; and on a non-empty, key-aligned
model sampling always succeeds, so none occurs exactly in the empty
case. -/
theorem modelotr_amostrar_empty (m : ModeloTR S A) :
    (m.T = [] → ∀ idx, m.amostrar idx = none) ∧
    (m.T ≠ [] → keysAligned m → ∀ idx, (m.amostrar idx).isSome) := by
  constructor
  · intro hT idx
    obtain ⟨mT, mR⟩ := m
    simp only at hT
    subst hT
    rfl
  · intro hT hal idx
    exact modelotr_amostrar_isSome m idx hT hal

theorem modelotr_amostrar_empty_witness :
    ModeloTR.amostrar (⟨[], []⟩ : ModeloTR ℕ ℕ) 5 = none ∧
    (ModeloTR.amostrar (⟨[((0, 1), 2)], [((0, 1), (3 : ℚ))]⟩ : ModeloTR ℕ ℕ) 4).isSome :=
  ⟨(modelotr_amostrar_empty (⟨[], []⟩ : ModeloTR ℕ ℕ)).1 rfl 5,
    (modelotr_amostrar_empty (⟨[((0, 1), 2)], [((0, 1), (3 : ℚ))]⟩ : ModeloTR ℕ ℕ)).2
      (by decide) rfl 4⟩

/-- Claim C8: sampling the experience memory never fails: for every
buffer state and request n it returns exactly min n size experiences
drawn without replacement (a sub-permutation of the current contents);
sampling an empty memory returns the empty list. -/
theorem memoria_amostrar_total (T : Type) (m : MemoriaExperiencia T) (n : ℕ)
    (rho : List T → List T) (hperm : List.Perm (rho m.memoria) m.memoria) :
    (m.amostrar n rho).length = min n m.memoria.length ∧
    List.Subperm (m.amostrar n rho) m.memoria ∧
    (m.memoria = [] → m.amostrar n rho = []) := by
  refine ⟨?_, ?_, ?_⟩
  · rw [MemoriaExperiencia.amostrar, List.length_take, hperm.length_eq,
      min_assoc, min_self]
  · exact ((List.take_sublist _ _).subperm).trans hperm.subperm
  · intro h
    rw [h] at hperm
    have h2 : rho [] = [] := hperm.eq_nil
    rw [MemoriaExperiencia.amostrar, h, h2]
    simp

theorem memoria_amostrar_total_witness :
    List.Perm (id [4, 5]) [4, 5] ∧
    (((⟨3, [4, 5]⟩ : MemoriaExperiencia ℕ).amostrar 5 id).length
        = min 5 ([4, 5] : List ℕ).length ∧
      List.Subperm ((⟨3, [4, 5]⟩ : MemoriaExperiencia ℕ).amostrar 5 id) [4, 5] ∧
      (([4, 5] : List ℕ) = [] → (⟨3, [4, 5]⟩ : MemoriaExperiencia ℕ).amostrar 5 id = [])) :=
  ⟨List.Perm.refl _,
    memoria_amostrar_total ℕ (⟨3, [4, 5]⟩ : MemoriaExperiencia ℕ) 5 id (List.Perm.refl _)⟩

lemma keysAligned_atualizar (m : ModeloTR S A) (s : S) (a : A) (r : ℚ) (sn : S)
    (hal : keysAligned m) : keysAligned (m.atualizar s a r sn) :=
  dictUpd_keys_eq m.R m.T (s, a) r sn hal

lemma dynaq_simular_isSome (alfa gama : ℚ) (rhos : ℕ → List A → List A)
    (idxs : ℕ → ℕ) (hrho : ∀ j (l : List A), List.Perm (rhos j l) l) :
    ∀ (n k : ℕ) (mem : MemoriaEsparsa S A) (acoes : List A) (modelo : ModeloTR S A),
      acoes ≠ [] → modelo.T ≠ [] → keysAligned modelo →
      (DynaQ.simular alfa gama rhos idxs n k mem acoes modelo).isSome := by
  intro n
  induction n with
  | zero =>
    intro k mem acoes modelo _ _ _
    rfl
  | succ n ih =>
    intro k mem acoes modelo hne hT hal
    obtain ⟨v, hv⟩ := Option.isSome_iff_exists.1 (modelotr_amostrar_isSome modelo (idxs k) hT hal)
    obtain ⟨s, a, r, sn⟩ := v
    obtain ⟨mem2, hq⟩ := qlearning_aprender_some alfa gama mem acoes s a r sn (rhos k)
      hne (hrho k acoes)
    have hrec := ih (k + 1) mem2 (rhos k acoes) modelo
      (perm_ne_nil (hrho k acoes) hne) hT hal
    simp only [DynaQ.simular]
    rw [hv]
    simp only [hq]
    exact hrec

/-- Claim C9: every Dyna-Q observation records the real transition into
the model before any simulated update runs, so every model sampling of
the simulation loop acts on a non-empty model and the whole call
succeeds (the empty-model failure of amostrar is unreachable); the
returned model is exactly the input model with the real transition
recorded. -/
theorem dynaq_aprender_total (alfa gama : ℚ) (num_sim : ℕ)
    (mem : MemoriaEsparsa S A) (acoes : List A) (modelo : ModeloTR S A)
    (s : S) (a : A) (r : ℚ) (sn : S) (rhos : ℕ → List A → List A) (idxs : ℕ → ℕ)
    (hrho : ∀ j (l : List A), List.Perm (rhos j l) l) (hne : acoes ≠ [])
    (hal : keysAligned modelo) :
    ∃ x, DynaQ.aprender alfa gama num_sim mem acoes modelo s a r sn rhos idxs = some x ∧
      x.2.2 = modelo.atualizar s a r sn := by
  obtain ⟨mem1, hq⟩ := qlearning_aprender_some alfa gama mem acoes s a r sn (rhos 0)
    hne (hrho 0 acoes)
  have hT1 : (modelo.atualizar s a r sn).T ≠ [] := dictUpd_ne_nil _ _ _
  have hal1 : keysAligned (modelo.atualizar s a r sn) :=
    keysAligned_atualizar modelo s a r sn hal
  have hsim := dynaq_simular_isSome alfa gama rhos idxs hrho num_sim 1 mem1
    (rhos 0 acoes) (modelo.atualizar s a r sn)
    (perm_ne_nil (hrho 0 acoes) hne) hT1 hal1
  obtain ⟨y, hy⟩ := Option.isSome_iff_exists.1 hsim
  refine ⟨(y.1, y.2, modelo.atualizar s a r sn), ?_, rfl⟩
  simp only [DynaQ.aprender, hq]
  rw [hy]
  rfl

theorem dynaq_aprender_total_witness :
    (∀ j (l : List ℕ), List.Perm ((fun (_ : ℕ) (l : List ℕ) => l) j l) l) ∧
    (([0, 1] : List ℕ) ≠ []) ∧
    ∃ x, DynaQ.aprender 1 1 2 (⟨0, []⟩ : MemoriaEsparsa ℕ ℕ) [0, 1]
        (⟨[], []⟩ : ModeloTR ℕ ℕ) 0 1 1 0 (fun _ l => l) (fun _ => 0) = some x ∧
      x.2.2 = (⟨[], []⟩ : ModeloTR ℕ ℕ).atualizar 0 1 1 0 :=
  ⟨fun _ _ => List.Perm.refl _, by decide,
    dynaq_aprender_total 1 1 2 (⟨0, []⟩ : MemoriaEsparsa ℕ ℕ) [0, 1]
      (⟨[], []⟩ : ModeloTR ℕ ℕ) 0 1 1 0 (fun _ l => l) (fun _ => 0)
      (fun _ _ => List.Perm.refl _) (by decide) rfl⟩

/-- Claim C10: the tie-break selection leaves the Q memory (and
epsilon) unchanged but replaces the shared action list by a
permutation of itself; the same side effect propagates through
exploitation, epsilon-greedy selection and the off-policy update, so
after any of these calls the action list holds the same multiset of
actions, in a possibly different order. -/
theorem max_acao_frame_effect (eg : EGreedy S A) (s : S) (p : ℚ)
    (rho : List A → List A) (idx : ℕ) (alfa gama r : ℚ) (s0 sn : S) (a0 : A)
    (hrho : List.Perm (rho eg.acoes) eg.acoes) :
    (∀ b l2, SelAcao.max_acao eg.mem_aprend s eg.acoes rho = some (b, l2) →
      List.Perm l2 eg.acoes) ∧
    (∀ b eg2, EGreedy.aproveitar eg s rho = some (b, eg2) →
      eg2.mem_aprend = eg.mem_aprend ∧ eg2.epsilon = eg.epsilon ∧
      List.Perm eg2.acoes eg.acoes) ∧
    (∀ b eg2, EGreedy.selecionar_acao eg s p rho idx = some (b, eg2) →
      eg2.mem_aprend = eg.mem_aprend ∧ List.Perm eg2.acoes eg.acoes) ∧
    (∀ mem2 acoes2,
      QLearning.aprender alfa gama eg.mem_aprend eg.acoes s0 a0 r sn rho
        = some (mem2, acoes2) → List.Perm acoes2 eg.acoes) := by
  have hmax : ∀ (st : S) b l2,
      SelAcao.max_acao eg.mem_aprend st eg.acoes rho = some (b, l2) →
      List.Perm l2 eg.acoes := by
    intro st b l2 h
    rw [SelAcao.max_acao] at h
    cases hfm : firstMaxBy (eg.mem_aprend.Q st) (rho eg.acoes) with
    | none => rw [hfm] at h; exact Option.noConfusion h
    | some b0 =>
      rw [hfm] at h
      injection h with h2
      injection h2 with hb hl
      rw [← hl]
      exact hrho
  have haprov : ∀ b eg2, EGreedy.aproveitar eg s rho = some (b, eg2) →
      eg2.mem_aprend = eg.mem_aprend ∧ eg2.epsilon = eg.epsilon ∧
      List.Perm eg2.acoes eg.acoes := by
    intro b eg2 h
    rw [EGreedy.aproveitar, SelAcao.max_acao] at h
    cases hfm : firstMaxBy (eg.mem_aprend.Q s) (rho eg.acoes) with
    | none => rw [hfm] at h; exact Option.noConfusion h
    | some b0 =>
      rw [hfm] at h
      injection h with h2
      injection h2 with hb heg
      rw [← heg]
      exact ⟨rfl, rfl, hrho⟩
  refine ⟨hmax s, haprov, ?_, ?_⟩
  · intro b eg2 h
    rw [EGreedy.selecionar_acao] at h
    by_cases hp : eg.epsilon < p
    · rw [if_pos hp] at h
      obtain ⟨h1, _, h3⟩ := haprov b eg2 h
      exact ⟨h1, h3⟩
    · rw [if_neg hp] at h
      cases hex : eg.explorar idx with
      | none => rw [hex] at h; exact Option.noConfusion h
      | some b0 =>
        rw [hex] at h
        injection h with h2
        injection h2 with hb heg
        rw [← heg]
        exact ⟨rfl, List.Perm.refl _⟩
  · intro mem2 acoes2 h
    rw [QLearning.aprender] at h
    cases hm : SelAcao.max_acao eg.mem_aprend sn eg.acoes rho with
    | none => rw [hm] at h; exact Option.noConfusion h
    | some x =>
      obtain ⟨b0, l0⟩ := x
      rw [hm] at h
      injection h with h2
      injection h2 with hmm hl
      rw [← hl]
      exact hmax sn b0 l0 hm

theorem max_acao_frame_effect_witness :
    List.Perm (id [0, 1]) [0, 1] ∧
    ((∀ b l2, SelAcao.max_acao (⟨0, []⟩ : MemoriaEsparsa ℕ ℕ) 0 [0, 1] id
        = some (b, l2) → List.Perm l2 [0, 1]) ∧
      (∀ b eg2, EGreedy.aproveitar (⟨⟨0, []⟩, [0, 1], 1/2⟩ : EGreedy ℕ ℕ) 0 id
          = some (b, eg2) →
        eg2.mem_aprend = (⟨0, []⟩ : MemoriaEsparsa ℕ ℕ) ∧ eg2.epsilon = 1/2 ∧
        List.Perm eg2.acoes [0, 1]) ∧
      (∀ b eg2, EGreedy.selecionar_acao (⟨⟨0, []⟩, [0, 1], 1/2⟩ : EGreedy ℕ ℕ) 0 1 id 0
          = some (b, eg2) →
        eg2.mem_aprend = (⟨0, []⟩ : MemoriaEsparsa ℕ ℕ) ∧ List.Perm eg2.acoes [0, 1]) ∧
      (∀ mem2 acoes2, QLearning.aprender 1 1 (⟨0, []⟩ : MemoriaEsparsa ℕ ℕ) [0, 1] 0 0 0 0 id
          = some (mem2, acoes2) → List.Perm acoes2 [0, 1])) :=
  ⟨List.Perm.refl _,
    max_acao_frame_effect (⟨⟨0, []⟩, [0, 1], 1/2⟩ : EGreedy ℕ ℕ) 0 1 id 0 1 1 0 0 0 0
      (List.Perm.refl _)⟩

/- Lemmas for the uniform tie-break theorem. -/

lemma max_acao_unif_eq (mem : MemoriaEsparsa S A) (s : S) (l : List A)
    (sigma : Equiv.Perm (Fin l.length)) :
    max_acao_unif mem s l sigma
      = (firstMaxBy (mem.Q s) (shuffleList l sigma)).map
          (fun b => (b, shuffleList l sigma)) := rfl

lemma max_acao_unif_fst (mem : MemoriaEsparsa S A) (s : S) (l : List A)
    (sigma : Equiv.Perm (Fin l.length)) :
    (max_acao_unif mem s l sigma).map Prod.fst
      = firstMaxBy (mem.Q s) (shuffleList l sigma) := by
  rw [max_acao_unif_eq]
  cases firstMaxBy (mem.Q s) (shuffleList l sigma) <;> rfl

lemma get_swapElems (l : List A) (hnd : l.Nodup) (i j : Fin l.length)
    (hij : i ≠ j) (k : Fin l.length) :
    l.get (Equiv.swap i j k) = swapElems l i j (l.get k) := by
  rcases eq_or_ne k i with rfl | hki
  · rw [Equiv.swap_apply_left, swapElems, if_pos rfl]
  · rcases eq_or_ne k j with rfl | hkj
    · rw [Equiv.swap_apply_right, swapElems,
        if_neg (fun h => hij ((hnd.get_inj_iff).1 h).symm), if_pos rfl]
    · rw [Equiv.swap_apply_of_ne_of_ne hki hkj, swapElems,
        if_neg (fun h => hki ((hnd.get_inj_iff).1 h)),
        if_neg (fun h => hkj ((hnd.get_inj_iff).1 h))]

lemma shuffleList_trans_swap (l : List A) (hnd : l.Nodup) (i j : Fin l.length)
    (hij : i ≠ j) (sigma : Equiv.Perm (Fin l.length)) :
    shuffleList l (sigma.trans (Equiv.swap i j))
      = (shuffleList l sigma).map (swapElems l i j) := by
  rw [shuffleList, shuffleList, List.map_ofFn]
  apply congrArg List.ofFn
  funext p
  show l.get (Equiv.swap i j (sigma p)) = swapElems l i j (l.get (sigma p))
  exact get_swapElems l hnd i j hij (sigma p)

lemma swapElems_value (f : A → ℚ) (l : List A) (i j : Fin l.length)
    (hval : f (l.get i) = f (l.get j)) (z : A) : f (swapElems l i j z) = f z := by
  rw [swapElems]
  by_cases h1 : z = l.get i
  · rw [if_pos h1, h1, hval]
  · rw [if_neg h1]
    by_cases h2 : z = l.get j
    · rw [if_pos h2, h2, hval]
    · rw [if_neg h2]

lemma result_trans_swap (mem : MemoriaEsparsa S A) (s : S) (l : List A)
    (hnd : l.Nodup) (i j : Fin l.length) (hij : i ≠ j)
    (hval : mem.Q s (l.get i) = mem.Q s (l.get j))
    (sigma : Equiv.Perm (Fin l.length)) :
    firstMaxBy (mem.Q s) (shuffleList l (sigma.trans (Equiv.swap i j)))
      = Option.map (swapElems l i j) (firstMaxBy (mem.Q s) (shuffleList l sigma)) := by
  rw [shuffleList_trans_swap l hnd i j hij sigma,
    firstMaxBy_map (mem.Q s) (swapElems l i j) (swapElems_value (mem.Q s) l i j hval)]

/-- Claim C5: for every state and non-empty duplicate-free candidate
action list, the tie-break selection (shuffle then stable first-maximum
scan) always returns an action whose stored Q estimate equals the
maximum over the candidates; and, modelling the shuffle as a uniformly
random permutation of the positions, any two actions tied for that
maximum are returned by exactly the same number of permutations, hence
with equal probability. -/
theorem max_acao_max_and_uniform (mem : MemoriaEsparsa S A) (s : S) (l : List A)
    (hne : l ≠ []) (hnd : l.Nodup) :
    (∀ sigma : Equiv.Perm (Fin l.length), ∃ b,
      max_acao_unif mem s l sigma = some (b, shuffleList l sigma) ∧ b ∈ l ∧
      ∀ x ∈ l, mem.Q s x ≤ mem.Q s b) ∧
    (∀ i j : Fin l.length,
      (∀ x ∈ l, mem.Q s x ≤ mem.Q s (l.get i)) →
      (∀ x ∈ l, mem.Q s x ≤ mem.Q s (l.get j)) →
      (Finset.univ.filter (fun sigma : Equiv.Perm (Fin l.length) =>
          (max_acao_unif mem s l sigma).map Prod.fst = some (l.get i))).card =
      (Finset.univ.filter (fun sigma : Equiv.Perm (Fin l.length) =>
          (max_acao_unif mem s l sigma).map Prod.fst = some (l.get j))).card) := by
  constructor
  · intro sigma
    obtain ⟨b, hb, hbmem, hball⟩ := firstMaxBy_spec (mem.Q s) (shuffleList l sigma)
      (shuffleList_ne_nil l sigma hne)
    refine ⟨b, ?_, (mem_shuffleList l sigma b).1 hbmem, ?_⟩
    · rw [max_acao_unif_eq, hb]
      rfl
    · intro x hx
      exact hball x ((mem_shuffleList l sigma x).2 hx)
  · intro i j hi hj
    rcases eq_or_ne i j with rfl | hij
    · rfl
    · have hval : mem.Q s (l.get i) = mem.Q s (l.get j) :=
        le_antisymm (hj _ (l.get_mem _ _)) (hi _ (l.get_mem _ _))
      have key : ∀ sigma : Equiv.Perm (Fin l.length),
          (max_acao_unif mem s l (sigma.trans (Equiv.swap i j))).map Prod.fst
            = Option.map (swapElems l i j)
                ((max_acao_unif mem s l sigma).map Prod.fst) := by
        intro sigma
        rw [max_acao_unif_fst, max_acao_unif_fst,
          result_trans_swap mem s l hnd i j hij hval sigma]
      have hphi_i : swapElems l i j (l.get i) = l.get j := by
        rw [swapElems, if_pos rfl]
      have hphi_j : swapElems l i j (l.get j) = l.get i := by
        rw [swapElems, if_neg (fun h => hij ((hnd.get_inj_iff).1 h).symm), if_pos rfl]
      have hinv : ∀ sigma : Equiv.Perm (Fin l.length),
          (sigma.trans (Equiv.swap i j)).trans (Equiv.swap i j) = sigma := by
        intro sigma
        rw [Equiv.trans_assoc, Equiv.swap_swap, Equiv.trans_refl]
      refine Finset.card_nbij' (fun sigma => sigma.trans (Equiv.swap i j))
        (fun sigma => sigma.trans (Equiv.swap i j)) ?_ ?_ ?_ ?_
      · intro sigma hs
        rw [Finset.mem_filter] at hs ⊢
        refine ⟨Finset.mem_univ _, ?_⟩
        rw [key sigma, hs.2]
        show some (swapElems l i j (l.get i)) = some (l.get j)
        rw [hphi_i]
      · intro sigma hs
        rw [Finset.mem_filter] at hs ⊢
        refine ⟨Finset.mem_univ _, ?_⟩
        rw [key sigma, hs.2]
        show some (swapElems l i j (l.get j)) = some (l.get i)
        rw [hphi_j]
      · intro sigma _
        exact hinv sigma
      · intro sigma _
        exact hinv sigma

theorem max_acao_max_and_uniform_witness :
    (([0, 1] : List ℕ) ≠ []) ∧ (([0, 1] : List ℕ).Nodup) ∧
    ((∀ sigma : Equiv.Perm (Fin ([0, 1] : List ℕ).length), ∃ b,
        max_acao_unif (⟨0, []⟩ : MemoriaEsparsa ℕ ℕ) 0 [0, 1] sigma
          = some (b, shuffleList [0, 1] sigma) ∧ b ∈ ([0, 1] : List ℕ) ∧
        ∀ x ∈ ([0, 1] : List ℕ),
          (⟨0, []⟩ : MemoriaEsparsa ℕ ℕ).Q 0 x ≤ (⟨0, []⟩ : MemoriaEsparsa ℕ ℕ).Q 0 b) ∧
      (∀ i j : Fin ([0, 1] : List ℕ).length,
        (∀ x ∈ ([0, 1] : List ℕ),
          (⟨0, []⟩ : MemoriaEsparsa ℕ ℕ).Q 0 x
            ≤ (⟨0, []⟩ : MemoriaEsparsa ℕ ℕ).Q 0 (([0, 1] : List ℕ).get i)) →
        (∀ x ∈ ([0, 1] : List ℕ),
          (⟨0, []⟩ : MemoriaEsparsa ℕ ℕ).Q 0 x
            ≤ (⟨0, []⟩ : MemoriaEsparsa ℕ ℕ).Q 0 (([0, 1] : List ℕ).get j)) →
        (Finset.univ.filter (fun sigma : Equiv.Perm (Fin ([0, 1] : List ℕ).length) =>
            (max_acao_unif (⟨0, []⟩ : MemoriaEsparsa ℕ ℕ) 0 [0, 1] sigma).map Prod.fst
              = some (([0, 1] : List ℕ).get i))).card =
        (Finset.univ.filter (fun sigma : Equiv.Perm (Fin ([0, 1] : List ℕ).length) =>
            (max_acao_unif (⟨0, []⟩ : MemoriaEsparsa ℕ ℕ) 0 [0, 1] sigma).map Prod.fst
              = some (([0, 1] : List ℕ).get j))).card)) :=
  ⟨by decide, by decide,
    max_acao_max_and_uniform (⟨0, []⟩ : MemoriaEsparsa ℕ ℕ) 0 [0, 1] (by decide) (by decide)⟩
